import Mathlib

/-!
Verification of the celeste-converter-go codec and batch pipeline.

The definitions below are a shallow embedding of
`pkg/converter/graphics_converter.go` (the DATA <-> PNG codec) and of the
batch conversion pipeline (`FilesConverter.convert`).  Bytes are modelled as
`Nat` (wire values 0..255), machine `int32` values as `Int` obtained from the
four little-endian bytes, and pixels as four 8-bit channels.
-/

namespace Celeste

/-- An RGBA pixel as produced by `getRGBA` in the Go source: four 8-bit
channels, obtained from `color.RGBA()` by shifting the 16-bit values down to
8 bits (so they are alpha-premultiplied values in 0..255). -/
structure Pixel where
  r : Nat
  g : Nat
  b : Nat
  a : Nat
deriving DecidableEq, Repr

/-- The decode-side failures of `DataToPng`.  `truncatedHeader` stands for the
error returned by `binary.Read` when fewer than 12 header bytes are available;
`invalidDimensions` for the explicit `errors.New("invalid image dimensions")`;
`unexpectedEOF` for `io.ErrUnexpectedEOF` escaping from `io.ReadFull` when a
3-byte colour read is cut short after 1 or 2 bytes (the code only converts a
clean `io.EOF` into early termination). -/
inductive DecodeError where
  | truncatedHeader
  | invalidDimensions
  | unexpectedEOF
deriving DecidableEq, Repr

/-- Reinterpret a value in 0..2^32-1 as a signed 32-bit integer (two's
complement), as `binary.Read` into an `int32` does. -/
def toInt32 (n : Nat) : Int :=
  if n < 2 ^ 31 then (n : Int) else (n : Int) - 2 ^ 32

/-- Little-endian read of an `int32` from four bytes, as
`binary.Read(input, binary.LittleEndian, &width)` does. -/
def readInt32LE (b0 b1 b2 b3 : Nat) : Int :=
  toInt32 ((b0 % 256) + 256 * (b1 % 256) + 256 ^ 2 * (b2 % 256) + 256 ^ 3 * (b3 % 256))

/-- Little-endian bytes of `int32(n)` for a nonnegative `n`, as
`binary.Write(output, binary.LittleEndian, int32(n))` emits them. -/
def int32LEBytes (n : Nat) : List Nat :=
  [n % 256, n / 256 % 256, n / 256 ^ 2 % 256, n / 256 ^ 3 % 256]

/-- The canvas default written by the initialisation loop of `DataToPng`:
fully transparent black in alpha mode, fully opaque black otherwise. -/
def defaultPixel (hasAlpha : Bool) : Pixel :=
  if hasAlpha then ⟨0, 0, 0, 0⟩ else ⟨0, 0, 0, 255⟩

/-- The RLE body loop of `DataToPng` (graphics_converter.go lines 63-150),
expressed over the remaining pixel count and the remaining byte stream.
Each arm mirrors the Go control flow:
* `remaining = 0`: the loop guard `i < width*height` fails, loop ends;
* stream empty at the count byte: `err == io.EOF`, best-effort break, the
  still-unpainted `remaining` pixels keep the canvas default;
* alpha mode: read the alpha byte (EOF there breaks); when it is zero the
  colour stays `(0,0,0,0)` and no colour bytes are consumed; when it is
  nonzero `io.ReadFull` wants 3 bytes `B,G,R` — 0 available is `io.EOF`
  (break), 1 or 2 available is `io.ErrUnexpectedEOF` (returned as an error);
* non-alpha mode: `io.ReadFull` of `B,G,R` with the same EOF distinction and
  the pixel alpha forced to 255;
* the run length (count byte, with 0 meaning 256) is clamped to the pixels
  left, that many pixels are painted with the run colour, and the loop
  continues on the rest of the stream. -/
def decodeBody (hasAlpha : Bool) : Nat → List Nat → Except DecodeError (List Pixel)
  | 0, _ => .ok []
  | n + 1, [] => .ok (List.replicate (n + 1) (defaultPixel hasAlpha))
  | n + 1, cByte :: rest =>
    let count := if cByte = 0 then 256 else cByte
    let clamped := min count (n + 1)
    if hasAlpha then
      match rest with
      | [] => .ok (List.replicate (n + 1) (defaultPixel hasAlpha))
      | a :: rest2 =>
        if a = 0 then
          match decodeBody hasAlpha (n + 1 - clamped) rest2 with
          | .ok tail => .ok (List.replicate clamped ⟨0, 0, 0, 0⟩ ++ tail)
          | .error e => .error e
        else
          match rest2 with
          | [] => .ok (List.replicate (n + 1) (defaultPixel hasAlpha))
          | [_] => .error .unexpectedEOF
          | [_, _] => .error .unexpectedEOF
          | b :: g :: r :: rest3 =>
            match decodeBody hasAlpha (n + 1 - clamped) rest3 with
            | .ok tail => .ok (List.replicate clamped ⟨r, g, b, a⟩ ++ tail)
            | .error e => .error e
    else
      match rest with
      | [] => .ok (List.replicate (n + 1) (defaultPixel hasAlpha))
      | [_] => .error .unexpectedEOF
      | [_, _] => .error .unexpectedEOF
      | b :: g :: r :: rest3 =>
        match decodeBody hasAlpha (n + 1 - clamped) rest3 with
        | .ok tail => .ok (List.replicate clamped ⟨r, g, b, 255⟩ ++ tail)
        | .error e => .error e

/-- The in-memory image `DataToPng` builds: the Go code allocates an
`image.RGBA` of the validated dimensions and fills it row-major. -/
structure DecodedImage where
  width : Nat
  height : Nat
  pixels : List Pixel
deriving DecidableEq, Repr

/-- `DataToPng` (graphics_converter.go lines 27-154): read three little-endian
`int32` header words (failing like `binary.Read` when fewer than 12 bytes are
available), reject invalid dimensions, then run the RLE body loop over a
`width*height` canvas. -/
def dataToPng (s : List Nat) : Except DecodeError DecodedImage :=
  match s with
  | b0 :: b1 :: b2 :: b3 :: b4 :: b5 :: b6 :: b7 :: b8 :: b9 :: b10 :: b11 :: body =>
    let width := readInt32LE b0 b1 b2 b3
    let height := readInt32LE b4 b5 b6 b7
    let alphaFlag := readInt32LE b8 b9 b10 b11
    let hasAlpha : Bool := alphaFlag != 0
    if width ≤ 0 ∨ height ≤ 0 ∨ width > 8192 ∨ height > 8192 then
      .error .invalidDimensions
    else
      match decodeBody hasAlpha (width.toNat * height.toNat) body with
      | .ok px => .ok ⟨width.toNat, height.toNat, px⟩
      | .error e => .error e
  | _ => .error .truncatedHeader

/-- Two channel values agree within `tol`, as `colorsWithinTolerance` in the
tests checks (`|c1 - c2| <= tolerance`). -/
def channelClose (tol x y : Nat) : Prop :=
  x ≤ y + tol ∧ y ≤ x + tol

/-- Two pixels agree channel-wise within `tol`. -/
def pixelClose (tol : Nat) (p q : Pixel) : Prop :=
  channelClose tol p.r q.r ∧ channelClose tol p.g q.g ∧
    channelClose tol p.b q.b ∧ channelClose tol p.a q.a

/-- Length of the equal-pixel lookahead in `PngToData`: how many leading
pixels of the tail are exactly equal (in all four channels) to the current
run colour `c`.  This is the number of times the Go loop can execute
`count++` before the comparison at `(i + count)` fails or the canvas ends. -/
def matchRun (c : Pixel) : List Pixel → Nat
  | [] => 0
  | p :: t => if p = c then matchRun c t + 1 else 0

/-- The run list emitted by the `PngToData` body loop
(graphics_converter.go lines 192-266): at the cursor pixel `c`, the run
length is the lookahead count capped at 256 (`if count >= 256`), the cursor
then jumps past the run. -/
def pngRuns : List Pixel → List (Nat × Pixel)
  | [] => []
  | c :: t =>
    let count := min 256 (1 + matchRun c t)
    (count, c) :: pngRuns (t.drop (count - 1))
termination_by l => l.length
decreasing_by
  simp only [List.length_drop, List.length_cons]
  omega

/-- The count byte `PngToData` writes: `uint8(count)`, with 256 written
as 0 (the explicit `if count == 256` in the Go code). -/
def countByte (count : Nat) : Nat :=
  if count = 256 then 0 else count % 256

/-- Wire bytes of one run (graphics_converter.go lines 224-263): the count
byte; in alpha mode the alpha byte and then, only when that alpha is
nonzero, the three colour bytes `B,G,R`; in non-alpha mode always `B,G,R`. -/
def runBytes (hasAlpha : Bool) (run : Nat × Pixel) : List Nat :=
  if hasAlpha then
    if run.2.a = 0 then [countByte run.1, run.2.a]
    else [countByte run.1, run.2.a, run.2.b, run.2.g, run.2.r]
  else [countByte run.1, run.2.b, run.2.g, run.2.r]

/-- The whole DATA body `PngToData` writes for a pixel grid. -/
def bodyBytes (hasAlpha : Bool) (ps : List Pixel) : List Nat :=
  ((pngRuns ps).map (runBytes hasAlpha)).flatten

/-- The source image as `PngToData` sees it after `png.Decode`:
`exposesAlpha` models the type switch of `hasAlphaChannel` (whether the
decoded value is an `*image.RGBA` or `*image.NRGBA`), and `pixels` is the
row-major grid of 8-bit premultiplied channel values that `getRGBA`
extracts via `color.RGBA()`. -/
structure SourceImage where
  exposesAlpha : Bool
  width : Nat
  height : Nat
  pixels : List Pixel
deriving Repr

/-- `hasAlphaChannel` (graphics_converter.go lines 287-302): the pixel type
must expose an alpha channel and some pixel's alpha must be below fully
opaque.  The Go code compares the 16-bit value against `0xffff`; on the
8-bit channels of `getRGBA` (`a16 = a8 * 0x101`) that is exactly `a < 255`. -/
def hasAlphaChannel (img : SourceImage) : Bool :=
  img.exposesAlpha && img.pixels.any (fun p => decide (p.a < 255))

/-- `PngToData` (graphics_converter.go lines 157-269): write the three
little-endian `int32` header words (width, height, alpha flag 1 or 0) and
then the RLE body. -/
def pngToData (img : SourceImage) : List Nat :=
  let hasAlpha := hasAlphaChannel img
  int32LEBytes img.width ++ int32LEBytes img.height ++
    int32LEBytes (if hasAlpha then 1 else 0) ++ bodyBytes hasAlpha img.pixels

/-- The clamped run length the decode loop advances by in one iteration
(graphics_converter.go lines 80-83 and 135-139): the count byte with 0 read
as 256, clamped to `pixelsLeft := width*height - i`. -/
def runAdvance (width height i cByte : Nat) : Nat :=
  let count := if cByte = 0 then 256 else cByte
  let pixelsLeft := width * height - i
  if count > pixelsLeft then pixelsLeft else count

/-- The sequence of `img.SetRGBA(x, y, c)` calls performed by the body loop
of `DataToPng` from cursor `i` on (graphics_converter.go lines 141-147),
with the coordinates exactly as computed there: `x = (i+j) % width`,
`y = (i+j) / width`.  Arms that stop the loop (EOF, error, cursor at the
end) contribute no further writes. -/
def decodeWrites (hasAlpha : Bool) (width height : Nat) : Nat → List Nat → List (Nat × Nat × Pixel)
  | _, [] => []
  | i, cByte :: rest =>
    if i < width * height then
      let adv := runAdvance width height i cByte
      if hasAlpha then
        match rest with
        | [] => []
        | a :: rest2 =>
          if a = 0 then
            (List.range adv).map (fun j => ((i + j) % width, (i + j) / width, (⟨0, 0, 0, 0⟩ : Pixel))) ++
              decodeWrites hasAlpha width height (i + adv) rest2
          else
            match rest2 with
            | [] => []
            | [_] => []
            | [_, _] => []
            | b :: g :: r :: rest3 =>
              (List.range adv).map (fun j => ((i + j) % width, (i + j) / width, (⟨r, g, b, a⟩ : Pixel))) ++
                decodeWrites hasAlpha width height (i + adv) rest3
      else
        match rest with
        | [] => []
        | [_] => []
        | [_, _] => []
        | b :: g :: r :: rest3 =>
          (List.range adv).map (fun j => ((i + j) % width, (i + j) / width, (⟨r, g, b, 255⟩ : Pixel))) ++
            decodeWrites hasAlpha width height (i + adv) rest3
    else []

/-- The per-task outcomes one `ConversionTask` can meet in the worker loop of
`FilesConverter.convert`: each fallible step either succeeds (`none`) or
produces the error the worker would push onto `errChan` (`some`), and the two
`Close` calls either succeed or fail.  This abstracts the filesystem's
behaviour for one task; the task's paths only matter through these
outcomes. -/
structure TaskOutcome where
  mkdirErr : Option String
  openErr : Option String
  createErr : Option String
  convertErr : Option String
  closeInOk : Bool
  closeOutOk : Bool

/-- The error a task contributes to `errChan`, if any: the first failing
step among `os.MkdirAll`, `os.Open`, `os.Create`, `convertFunc` — later
steps run only when the earlier ones succeeded. -/
def taskError (t : TaskOutcome) : Option String :=
  match t.mkdirErr with
  | some e => some e
  | none =>
    match t.openErr with
    | some e => some e
    | none =>
      match t.createErr with
      | some e => some e
      | none => t.convertErr

/-- Whether the task produced a correct output file: all four steps
succeeded (the conversion ran and wrote the output). -/
def taskConverted (t : TaskOutcome) : Bool :=
  t.mkdirErr.isNone && t.openErr.isNone && t.createErr.isNone && t.convertErr.isNone

/-- The worker loop body (files_converter source, lines 129-175), serialised
over the shared task queue in queue order: on a step failure the error is
sent to `errChan` and the worker `continue`s with the next task; when a
`Close` fails the Go worker `return`s, abandoning the rest of the queue
without recording an error.  The result is the content of `errChan` in send
order. -/
def runWorker : List TaskOutcome → List String
  | [] => []
  | t :: rest =>
    match t.mkdirErr with
    | some e => e :: runWorker rest
    | none =>
      match t.openErr with
      | some e => e :: runWorker rest
      | none =>
        match t.createErr with
        | some e => e :: runWorker rest
        | none =>
          match t.convertErr with
          | some e => e :: runWorker rest
          | none =>
            if t.closeInOk then
              if t.closeOutOk then runWorker rest else []
            else []

/-- `FilesConverter.convert` (files_converter source, lines 66-186) after
directory scanning, with per-task filesystem behaviour given by `outcomes`:
an empty match list returns success before any work; a failure of
`os.MkdirAll(toDir)` is returned directly; otherwise the workers drain the
queue, and after the `wg.Wait()` barrier the first error in `errChan` (if
any) is returned. -/
def convert (mkToDirErr : Option String) (outcomes : List TaskOutcome) : Option String :=
  if outcomes.isEmpty then none
  else
    match mkToDirErr with
    | some e => some e
    | none => (runWorker outcomes).head?

/-! Step lemmas: the behaviour of one iteration of the `DataToPng` body loop,
one per control path. -/

/-- Loop guard fails: no pixels remain, the stream is left unread. -/
theorem decodeBody_zero (hasAlpha : Bool) (s : List Nat) : decodeBody hasAlpha 0 s = .ok [] := by
  cases s <;> rfl

/-- EOF at the count byte: best-effort break, remaining pixels keep the default. -/
theorem decodeBody_nil (hasAlpha : Bool) (n : Nat) :
    decodeBody hasAlpha (n + 1) [] = .ok (List.replicate (n + 1) (defaultPixel hasAlpha)) := rfl

/-- Alpha mode, EOF at the alpha byte: best-effort break. -/
theorem decodeBody_alpha_eof (n cByte : Nat) :
    decodeBody true (n + 1) [cByte] = .ok (List.replicate (n + 1) (defaultPixel true)) := rfl

/-- Alpha mode, alpha byte zero: paint the clamped run with `(0,0,0,0)`,
consuming no colour bytes. -/
theorem decodeBody_alpha_zero (n cByte : Nat) (rest2 : List Nat) :
    decodeBody true (n + 1) (cByte :: 0 :: rest2) =
      (decodeBody true (n + 1 - min (if cByte = 0 then 256 else cByte) (n + 1)) rest2).map
        (fun tail => List.replicate (min (if cByte = 0 then 256 else cByte) (n + 1)) ⟨0, 0, 0, 0⟩ ++ tail) := by
  rw [decodeBody.eq_def]
  cases h : decodeBody true (n + 1 - min (if cByte = 0 then 256 else cByte) (n + 1)) rest2 <;>
    simp [h, Except.map]

/-- Alpha mode, nonzero alpha with all three colour bytes available: paint the
clamped run with `(B,G,R)` read in blue-green-red wire order. -/
theorem decodeBody_alpha_color (n cByte a b g r : Nat) (rest3 : List Nat) (ha : a ≠ 0) :
    decodeBody true (n + 1) (cByte :: a :: b :: g :: r :: rest3) =
      (decodeBody true (n + 1 - min (if cByte = 0 then 256 else cByte) (n + 1)) rest3).map
        (fun tail => List.replicate (min (if cByte = 0 then 256 else cByte) (n + 1)) ⟨r, g, b, a⟩ ++ tail) := by
  rw [decodeBody.eq_def]
  cases h : decodeBody true (n + 1 - min (if cByte = 0 then 256 else cByte) (n + 1)) rest3 <;>
    simp [h, Except.map, if_neg ha]

/-- Alpha mode, nonzero alpha and no colour bytes: `io.ReadFull` reports a
clean `io.EOF`, best-effort break. -/
theorem decodeBody_alpha_shortA (n cByte a : Nat) (ha : a ≠ 0) :
    decodeBody true (n + 1) [cByte, a] = .ok (List.replicate (n + 1) (defaultPixel true)) := by
  simp only [decodeBody, if_neg ha, if_pos trivial]

/-- Alpha mode, nonzero alpha and only one of three colour bytes:
`io.ReadFull` reports `io.ErrUnexpectedEOF`, a hard decode failure. -/
theorem decodeBody_alpha_short1 (n cByte a b : Nat) (ha : a ≠ 0) :
    decodeBody true (n + 1) [cByte, a, b] = .error .unexpectedEOF := by
  simp only [decodeBody, if_neg ha, if_pos trivial]

/-- Alpha mode, nonzero alpha and only two of three colour bytes: hard
decode failure. -/
theorem decodeBody_alpha_short2 (n cByte a b g : Nat) (ha : a ≠ 0) :
    decodeBody true (n + 1) [cByte, a, b, g] = .error .unexpectedEOF := by
  simp only [decodeBody, if_neg ha, if_pos trivial]

/-- Non-alpha mode with all three colour bytes: paint the clamped run with
alpha forced to 255. -/
theorem decodeBody_plain_color (n cByte b g r : Nat) (rest3 : List Nat) :
    decodeBody false (n + 1) (cByte :: b :: g :: r :: rest3) =
      (decodeBody false (n + 1 - min (if cByte = 0 then 256 else cByte) (n + 1)) rest3).map
        (fun tail => List.replicate (min (if cByte = 0 then 256 else cByte) (n + 1)) ⟨r, g, b, 255⟩ ++ tail) := by
  rw [decodeBody.eq_def]
  cases h : decodeBody false (n + 1 - min (if cByte = 0 then 256 else cByte) (n + 1)) rest3 <;>
    simp [h, Except.map]

/-- Non-alpha mode, no colour bytes: clean `io.EOF`, best-effort break. -/
theorem decodeBody_plain_eof (n cByte : Nat) :
    decodeBody false (n + 1) [cByte] = .ok (List.replicate (n + 1) (defaultPixel false)) := rfl

/-- Non-alpha mode, one of three colour bytes: hard decode failure. -/
theorem decodeBody_plain_short1 (n cByte b : Nat) :
    decodeBody false (n + 1) [cByte, b] = .error .unexpectedEOF := rfl

/-- Non-alpha mode, two of three colour bytes: hard decode failure. -/
theorem decodeBody_plain_short2 (n cByte b g : Nat) :
    decodeBody false (n + 1) [cByte, b, g] = .error .unexpectedEOF := rfl

/-- Master invariant of the body loop: a successful decode always yields
exactly the requested number of pixels, with some suffix of the result (the
pixels the stream never reached) equal to the canvas default; and the only
error the body loop can produce is the unexpected-EOF of a colour triple cut
short after one or two bytes. -/
theorem decodeBody_spec (hasAlpha : Bool) : ∀ m s,
    (∀ ps, decodeBody hasAlpha m s = .ok ps →
        ps.length = m ∧
          ∃ k, k ≤ m ∧ ps.drop k = List.replicate (m - k) (defaultPixel hasAlpha)) ∧
    (∀ e, decodeBody hasAlpha m s = .error e → e = .unexpectedEOF) := by
  intro m s
  induction m, s using decodeBody.induct hasAlpha with
  | case1 t =>
    refine ⟨fun ps h => ?_, fun e h => ?_⟩ <;> rw [decodeBody_zero] at h <;> cases h
    exact ⟨rfl, 0, by simp⟩
  | case2 n =>
    refine ⟨fun ps h => ?_, fun e h => ?_⟩ <;> rw [decodeBody_nil] at h <;> cases h
    exact ⟨by simp, 0, by simp⟩
  | case3 n cByte hA =>
    subst hA
    refine ⟨fun ps h => ?_, fun e h => ?_⟩ <;> rw [decodeBody_alpha_eof] at h <;> cases h
    exact ⟨by simp, 0, by simp⟩
  | case4 n cByte count clamped hA rest2 tail hrec ih =>
    subst hA
    have hcl : clamped = min (if cByte = 0 then 256 else cByte) (n + 1) := rfl
    rw [hcl] at hrec ih
    refine ⟨fun ps h => ?_, fun e h => ?_⟩ <;>
      rw [decodeBody_alpha_zero, hrec] at h <;>
      simp only [Except.map] at h
    case refine_2 => cases h
    obtain ⟨hlen, k, hk, hdrop⟩ := ih.1 tail hrec
    injection h with h
    subst h
    refine ⟨?_, min (if cByte = 0 then 256 else cByte) (n + 1) + k, ?_, ?_⟩
    · simp only [List.length_append, List.length_replicate, hlen]; omega
    · omega
    · have hD := @List.drop_append Pixel
        (List.replicate (min (if cByte = 0 then 256 else cByte) (n + 1)) (⟨0, 0, 0, 0⟩ : Pixel)) tail k
      rw [List.length_replicate] at hD
      rw [hD, hdrop]
      congr 1
      omega
  | case5 n cByte count clamped hA rest2 e0 hrec ih =>
    subst hA
    have hcl : clamped = min (if cByte = 0 then 256 else cByte) (n + 1) := rfl
    rw [hcl] at hrec ih
    refine ⟨fun ps h => ?_, fun e h => ?_⟩ <;>
      rw [decodeBody_alpha_zero, hrec] at h <;>
      simp only [Except.map] at h
    case refine_1 => cases h
    injection h with h
    subst h
    exact ih.2 e0 hrec
  | case6 n cByte hA a ha =>
    subst hA
    refine ⟨fun ps h => ?_, fun e h => ?_⟩ <;>
      rw [decodeBody_alpha_shortA n cByte a ha] at h <;> cases h
    exact ⟨by simp, 0, by simp⟩
  | case7 n cByte hA a ha b =>
    subst hA
    refine ⟨fun ps h => ?_, fun e h => ?_⟩ <;>
      rw [decodeBody_alpha_short1 n cByte a b ha] at h <;> cases h
    rfl
  | case8 n cByte hA a ha b g =>
    subst hA
    refine ⟨fun ps h => ?_, fun e h => ?_⟩ <;>
      rw [decodeBody_alpha_short2 n cByte a b g ha] at h <;> cases h
    rfl
  | case9 n cByte count clamped hA a ha b g r rest3 tail hrec ih =>
    subst hA
    have hcl : clamped = min (if cByte = 0 then 256 else cByte) (n + 1) := rfl
    rw [hcl] at hrec ih
    refine ⟨fun ps h => ?_, fun e h => ?_⟩ <;>
      rw [decodeBody_alpha_color n cByte a b g r rest3 ha, hrec] at h <;>
      simp only [Except.map] at h
    case refine_2 => cases h
    obtain ⟨hlen, k, hk, hdrop⟩ := ih.1 tail hrec
    injection h with h
    subst h
    refine ⟨?_, min (if cByte = 0 then 256 else cByte) (n + 1) + k, ?_, ?_⟩
    · simp only [List.length_append, List.length_replicate, hlen]; omega
    · omega
    · have hD := @List.drop_append Pixel
        (List.replicate (min (if cByte = 0 then 256 else cByte) (n + 1)) (⟨r, g, b, a⟩ : Pixel)) tail k
      rw [List.length_replicate] at hD
      rw [hD, hdrop]
      congr 1
      omega
  | case10 n cByte count clamped hA a ha b g r rest3 e0 hrec ih =>
    subst hA
    have hcl : clamped = min (if cByte = 0 then 256 else cByte) (n + 1) := rfl
    rw [hcl] at hrec ih
    refine ⟨fun ps h => ?_, fun e h => ?_⟩ <;>
      rw [decodeBody_alpha_color n cByte a b g r rest3 ha, hrec] at h <;>
      simp only [Except.map] at h
    case refine_1 => cases h
    injection h with h
    subst h
    exact ih.2 e0 hrec
  | case11 n cByte hA =>
    simp only [Bool.not_eq_true] at hA
    subst hA
    refine ⟨fun ps h => ?_, fun e h => ?_⟩ <;> rw [decodeBody_plain_eof] at h <;> cases h
    exact ⟨by simp, 0, by simp⟩
  | case12 n cByte hA b =>
    simp only [Bool.not_eq_true] at hA
    subst hA
    refine ⟨fun ps h => ?_, fun e h => ?_⟩ <;> rw [decodeBody_plain_short1] at h <;> cases h
    rfl
  | case13 n cByte hA b g =>
    simp only [Bool.not_eq_true] at hA
    subst hA
    refine ⟨fun ps h => ?_, fun e h => ?_⟩ <;> rw [decodeBody_plain_short2] at h <;> cases h
    rfl
  | case14 n cByte count clamped hA b g r rest3 tail hrec ih =>
    simp only [Bool.not_eq_true] at hA
    subst hA
    have hcl : clamped = min (if cByte = 0 then 256 else cByte) (n + 1) := rfl
    rw [hcl] at hrec ih
    refine ⟨fun ps h => ?_, fun e h => ?_⟩ <;>
      rw [decodeBody_plain_color, hrec] at h <;>
      simp only [Except.map] at h
    case refine_2 => cases h
    obtain ⟨hlen, k, hk, hdrop⟩ := ih.1 tail hrec
    injection h with h
    subst h
    refine ⟨?_, min (if cByte = 0 then 256 else cByte) (n + 1) + k, ?_, ?_⟩
    · simp only [List.length_append, List.length_replicate, hlen]; omega
    · omega
    · have hD := @List.drop_append Pixel
        (List.replicate (min (if cByte = 0 then 256 else cByte) (n + 1)) (⟨r, g, b, 255⟩ : Pixel)) tail k
      rw [List.length_replicate] at hD
      rw [hD, hdrop]
      congr 1
      omega
  | case15 n cByte count clamped hA b g r rest3 e0 hrec ih =>
    simp only [Bool.not_eq_true] at hA
    subst hA
    have hcl : clamped = min (if cByte = 0 then 256 else cByte) (n + 1) := rfl
    rw [hcl] at hrec ih
    refine ⟨fun ps h => ?_, fun e h => ?_⟩ <;>
      rw [decodeBody_plain_color, hrec] at h <;>
      simp only [Except.map] at h
    case refine_1 => cases h
    injection h with h
    subst h
    exact ih.2 e0 hrec

/-- Successful body decoding always yields exactly the requested number of
pixels: the canvas stays full-size however the stream ends. -/
theorem decodeBody_ok_length (hasAlpha : Bool) (m : Nat) (s : List Nat)
    (ps : List Pixel) (h : decodeBody hasAlpha m s = .ok ps) : ps.length = m :=
  ((decodeBody_spec hasAlpha m s).1 ps h).1

/-- Reading back the little-endian bytes of a small nonnegative `int32`
recovers the value. -/
theorem readInt32LE_int32LEBytes (n : Nat) (h : n < 2 ^ 31) :
    readInt32LE (n % 256) (n / 256 % 256) (n / 256 ^ 2 % 256) (n / 256 ^ 3 % 256) = (n : Int) := by
  have e2 : (256 : Nat) ^ 2 = 65536 := by norm_num
  have e3 : (256 : Nat) ^ 3 = 16777216 := by norm_num
  unfold readInt32LE toInt32
  rw [e2, e3]
  have key : n % 256 % 256 + 256 * (n / 256 % 256 % 256) + 65536 * (n / 65536 % 256 % 256) +
      16777216 * (n / 16777216 % 256 % 256) = n := by omega
  rw [key, if_pos (by omega)]

/-- The lookahead never runs past the end of the canvas. -/
theorem matchRun_le (c : Pixel) : ∀ t, matchRun c t ≤ t.length := by
  intro t
  induction t with
  | nil => simp [matchRun]
  | cons p t ih =>
    simp only [matchRun, List.length_cons]
    split <;> omega

/-- The pixels covered by the lookahead are all equal to the run colour. -/
theorem take_of_le_matchRun (c : Pixel) : ∀ t k, k ≤ matchRun c t → t.take k = List.replicate k c := by
  intro t
  induction t with
  | nil => intro k hk; simp [matchRun] at hk; simp [hk]
  | cons p t ih =>
    intro k hk
    simp only [matchRun] at hk
    by_cases hp : p = c
    · rw [if_pos hp] at hk
      cases k with
      | zero => simp
      | succ k =>
        simp only [List.take_succ_cons, List.replicate_succ, hp]
        rw [ih k (by omega)]
    · rw [if_neg hp] at hk
      interval_cases k
      simp

/-- Splitting a pixel list at the greedy run boundary. -/
theorem cons_eq_replicate_append (c : Pixel) (t : List Pixel) (k : Nat)
    (hk : k ≤ matchRun c t) :
    c :: t = List.replicate (k + 1) c ++ t.drop k := by
  have ht := take_of_le_matchRun c t k hk
  calc c :: t = c :: (t.take k ++ t.drop k) := by rw [List.take_append_drop]
    _ = List.replicate (k + 1) c ++ t.drop k := by
        rw [ht, List.replicate_succ]
        simp

/-- One unfolding of the encode run loop. -/
theorem pngRuns_cons (c : Pixel) (t : List Pixel) :
    pngRuns (c :: t) =
      (min 256 (1 + matchRun c t), c) :: pngRuns (t.drop (min 256 (1 + matchRun c t) - 1)) := by
  rw [pngRuns]

/-- One unfolding of the encode byte emitter. -/
theorem bodyBytes_cons (hasAlpha : Bool) (c : Pixel) (t : List Pixel) :
    bodyBytes hasAlpha (c :: t) =
      runBytes hasAlpha (min 256 (1 + matchRun c t), c) ++
        bodyBytes hasAlpha (t.drop (min 256 (1 + matchRun c t) - 1)) := by
  rw [bodyBytes, pngRuns_cons]
  simp [bodyBytes]

/-- Reading the count byte back gives the run length it encodes, for run
lengths in the range the encoder emits. -/
theorem countByte_roundtrip (count : Nat) (h1 : 1 ≤ count) (h2 : count ≤ 256) :
    (if countByte count = 0 then 256 else countByte count) = count := by
  unfold countByte
  rcases Nat.lt_or_ge count 256 with h | h
  · rw [if_neg (show ¬count = 256 by omega), Nat.mod_eq_of_lt h,
      if_neg (show ¬count = 0 by omega)]
  · have : count = 256 := by omega
    subst this
    norm_num

/-- Decoding the byte stream the encoder emits for a pixel grid recovers the
grid exactly, provided the grid's channel values are the kind `getRGBA` can
produce: premultiplied (alpha 0 forces the colour channels to 0, used only
in alpha mode) and, in non-alpha mode, fully opaque. -/
theorem decodeBody_bodyBytes (hasAlpha : Bool) :
    ∀ N ps, ps.length ≤ N →
      (hasAlpha = true → ∀ p ∈ ps, p.a = 0 → p.r = 0 ∧ p.g = 0 ∧ p.b = 0) →
      (hasAlpha = false → ∀ p ∈ ps, p.a = 255) →
      decodeBody hasAlpha ps.length (bodyBytes hasAlpha ps) = .ok ps := by
  intro N
  induction N with
  | zero =>
    intro ps hlen _ _
    have : ps = [] := List.length_eq_zero.mp (by omega)
    subst this
    simp [bodyBytes, pngRuns, decodeBody_zero]
  | succ N ih =>
    intro ps hlen hpm hop
    match ps with
    | [] => simp [bodyBytes, pngRuns, decodeBody_zero]
    | c :: t =>
      have hm := matchRun_le c t
      set cnt := min 256 (1 + matchRun c t) with hcnt
      have hc1 : 1 ≤ cnt := by omega
      have hc256 : cnt ≤ 256 := by omega
      have hcle : cnt ≤ t.length + 1 := by omega
      have hsplit : c :: t = List.replicate cnt c ++ t.drop (cnt - 1) := by
        have := cons_eq_replicate_append c t (cnt - 1) (by omega)
        rwa [show cnt - 1 + 1 = cnt by omega] at this
      have hrest_len : (t.drop (cnt - 1)).length = t.length + 1 - cnt := by
        simp [List.length_drop]
        omega
      have hrest_sub : ∀ p ∈ t.drop (cnt - 1), p ∈ c :: t := by
        intro p hp
        exact List.mem_cons_of_mem c (List.drop_subset _ t hp)
      have hih : decodeBody hasAlpha (t.drop (cnt - 1)).length
          (bodyBytes hasAlpha (t.drop (cnt - 1))) = .ok (t.drop (cnt - 1)) := by
        apply ih
        · simp only [List.length_cons] at hlen
          simp [List.length_drop]
          omega
        · intro hA p hp hpa
          exact hpm hA p (hrest_sub p hp) hpa
        · intro hA p hp
          exact hop hA p (hrest_sub p hp)
      have hcb : (if countByte cnt = 0 then 256 else countByte cnt) = cnt :=
        countByte_roundtrip cnt hc1 hc256
      have hmin : min (if countByte cnt = 0 then 256 else countByte cnt) (t.length + 1) = cnt := by
        rw [hcb]
        omega
      rw [bodyBytes_cons, ← hcnt, List.length_cons]
      cases hasAlpha with
      | true =>
        by_cases hca : c.a = 0
        · have hc0 : c = ⟨0, 0, 0, 0⟩ := by
            obtain ⟨h1, h2, h3⟩ := hpm rfl c (by simp) hca
            cases c
            simp_all
          rw [show runBytes true (cnt, c) = [countByte cnt, 0] by
            simp [runBytes, hca]]
          rw [show ([countByte cnt, 0] : List Nat) ++ bodyBytes true (t.drop (cnt - 1)) =
            countByte cnt :: 0 :: bodyBytes true (t.drop (cnt - 1)) from rfl]
          rw [decodeBody_alpha_zero, hmin]
          rw [show t.length + 1 - cnt = (t.drop (cnt - 1)).length by omega]
          rw [hih]
          simp only [Except.map]
          rw [← hc0, ← hsplit]
        · rw [show runBytes true (cnt, c) = [countByte cnt, c.a, c.b, c.g, c.r] by
            simp [runBytes, hca]]
          rw [show ([countByte cnt, c.a, c.b, c.g, c.r] : List Nat) ++ bodyBytes true (t.drop (cnt - 1)) =
            countByte cnt :: c.a :: c.b :: c.g :: c.r :: bodyBytes true (t.drop (cnt - 1)) from rfl]
          rw [decodeBody_alpha_color _ _ _ _ _ _ _ hca, hmin]
          rw [show t.length + 1 - cnt = (t.drop (cnt - 1)).length by omega]
          rw [hih]
          simp only [Except.map]
          rw [show (⟨c.r, c.g, c.b, c.a⟩ : Pixel) = c by cases c; rfl, ← hsplit]
      | false =>
        have hca : c.a = 255 := hop rfl c (by simp)
        rw [show runBytes false (cnt, c) = [countByte cnt, c.b, c.g, c.r] by
          simp [runBytes]]
        rw [show ([countByte cnt, c.b, c.g, c.r] : List Nat) ++ bodyBytes false (t.drop (cnt - 1)) =
          countByte cnt :: c.b :: c.g :: c.r :: bodyBytes false (t.drop (cnt - 1)) from rfl]
        rw [decodeBody_plain_color, hmin]
        rw [show t.length + 1 - cnt = (t.drop (cnt - 1)).length by omega]
        rw [hih]
        simp only [Except.map]
        rw [show (⟨c.r, c.g, c.b, 255⟩ : Pixel) = c by rw [← hca], ← hsplit]

/-- Decoding a stream with a well-formed header of in-range dimensions runs
the body loop on a `width*height` canvas in the mode given by the alpha
flag. -/
theorem dataToPng_header (w h flag : Nat) (body : List Nat)
    (hw1 : 1 ≤ w) (hw2 : w ≤ 8192) (hh1 : 1 ≤ h) (hh2 : h ≤ 8192) (hf : flag ≤ 1) :
    dataToPng (int32LEBytes w ++ int32LEBytes h ++ int32LEBytes flag ++ body) =
      (decodeBody (flag != 0) (w * h) body).map (fun ps => ⟨w, h, ps⟩) := by
  simp only [int32LEBytes, List.cons_append, List.nil_append]
  rw [dataToPng]
  rw [readInt32LE_int32LEBytes w (by omega), readInt32LE_int32LEBytes h (by omega),
    readInt32LE_int32LEBytes flag (by omega)]
  rw [if_neg (by omega)]
  have hflag : (((flag : Int)) != 0) = (flag != 0) := by
    interval_cases flag <;> simp
  rw [hflag]
  simp only [Int.toNat_natCast]
  cases decodeBody (flag != 0) (w * h) body <;> simp [Except.map]

/-- When `hasAlphaChannel` is false every pixel of an image with bounded
alpha channels is fully opaque: either the pixel type exposes no alpha
channel (and `color.RGBA()` reports `0xffff`), or the scan found no pixel
below fully opaque. -/
theorem opaque_of_not_hasAlphaChannel (img : SourceImage)
    (hop : img.exposesAlpha = false → ∀ p ∈ img.pixels, p.a = 255)
    (h255 : ∀ p ∈ img.pixels, p.a ≤ 255)
    (hAc : hasAlphaChannel img = false) :
    ∀ p ∈ img.pixels, p.a = 255 := by
  intro p hp
  simp only [hasAlphaChannel, Bool.and_eq_false_iff] at hAc
  rcases hAc with hAc | hAc
  · exact hop hAc p hp
  · have := List.any_eq_false.mp hAc p hp
    simp at this
    have := h255 p hp
    omega

/-- Exact round trip: decoding the DATA stream `PngToData` emits for a
source image recovers the image's dimensions and pixel grid exactly, for
any image whose channels are of the shape `getRGBA` produces. -/
theorem dataToPng_pngToData (img : SourceImage)
    (hlen : img.pixels.length = img.width * img.height)
    (hw1 : 1 ≤ img.width) (hw2 : img.width ≤ 8192)
    (hh1 : 1 ≤ img.height) (hh2 : img.height ≤ 8192)
    (hpm : ∀ p ∈ img.pixels, p.a = 0 → p.r = 0 ∧ p.g = 0 ∧ p.b = 0)
    (hop : img.exposesAlpha = false → ∀ p ∈ img.pixels, p.a = 255)
    (h255 : ∀ p ∈ img.pixels, p.a ≤ 255) :
    dataToPng (pngToData img) = .ok ⟨img.width, img.height, img.pixels⟩ := by
  rw [pngToData]
  rw [dataToPng_header img.width img.height _ _ hw1 hw2 hh1 hh2
    (by cases hasAlphaChannel img <;> simp)]
  have hmode : ((if hasAlphaChannel img then 1 else 0 : Nat) != 0) = hasAlphaChannel img := by
    cases hasAlphaChannel img <;> simp
  rw [hmode]
  rw [← hlen]
  rw [decodeBody_bodyBytes (hasAlphaChannel img) img.pixels.length img.pixels le_rfl]
  · rfl
  · intro hA p hp hpa
    exact hpm p hp hpa
  · intro hA
    exact opaque_of_not_hasAlphaChannel img hop h255 hA

/-- One decode iteration from a cursor strictly inside the canvas advances by
at least one pixel and never past the end: the count byte is at least 1
(0 standing for 256) and the clamp caps the run at the pixels left. -/
theorem runAdvance_bounds (w h i cByte : Nat) (hi : i < w * h) :
    1 ≤ runAdvance w h i cByte ∧ i + runAdvance w h i cByte ≤ w * h := by
  unfold runAdvance
  refine ⟨?_, ?_⟩ <;> dsimp only <;> (split <;> (try split)) <;> omega

/-- The writes of one painted run stay inside the image and preserve the
cursor bound. -/
theorem paintStep (w h i adv : Nat) (px : Pixel) (ws : List (Nat × Nat × Pixel))
    (hadv : i + adv ≤ w * h) (h1 : 1 ≤ adv)
    (hws : (∀ wr ∈ ws, wr.1 < w ∧ wr.2.1 < h) ∧ (i + adv) + ws.length ≤ w * h) :
    (∀ wr ∈ (List.range adv).map (fun j => ((i + j) % w, (i + j) / w, px)) ++ ws,
        wr.1 < w ∧ wr.2.1 < h) ∧
    i + ((List.range adv).map (fun j => ((i + j) % w, (i + j) / w, px)) ++ ws).length ≤ w * h := by
  constructor
  · intro wr hwr
    rcases List.mem_append.mp hwr with hm | hm
    · rcases List.mem_map.mp hm with ⟨j, hj, rfl⟩
      rw [List.mem_range] at hj
      have hij : i + j < w * h := by omega
      have hw : 0 < w := by
        rcases Nat.eq_zero_or_pos w with h0 | h0
        · rw [h0] at hij; omega
        · exact h0
      refine ⟨Nat.mod_lt _ hw, ?_⟩
      show (i + j) / w < h
      rw [Nat.div_lt_iff_lt_mul hw, mul_comm]
      exact hij
    · exact hws.1 wr hm
  · rw [List.length_append, List.length_map, List.length_range]
    have := hws.2
    omega

/-- All writes performed by the decode loop from a cursor within the canvas
hit coordinates inside the image, and the loop performs at most one write
per remaining pixel. -/
theorem decodeWrites_bounds (hasAlpha : Bool) (width height : Nat) :
    ∀ i s, i ≤ width * height →
      (∀ wr ∈ decodeWrites hasAlpha width height i s, wr.1 < width ∧ wr.2.1 < height) ∧
      i + (decodeWrites hasAlpha width height i s).length ≤ width * height := by
  intro i s
  induction i, s using decodeWrites.induct hasAlpha width height with
  | case1 i => intro hi; simpa [decodeWrites] using hi
  | case2 i cByte hlt hA => intro hi; subst hA; simpa [decodeWrites, hlt] using hi
  | case3 i cByte hlt adv hA rest2 ih =>
    intro hi
    subst hA
    obtain ⟨h1, h2⟩ := runAdvance_bounds width height i cByte hlt
    have hrw : decodeWrites true width height i (cByte :: 0 :: rest2) =
        (List.range (runAdvance width height i cByte)).map
          (fun j => ((i + j) % width, (i + j) / width, (⟨0, 0, 0, 0⟩ : Pixel))) ++
          decodeWrites true width height (i + runAdvance width height i cByte) rest2 := by
      simp [decodeWrites, hlt]
    rw [hrw]
    exact paintStep width height i _ _ _ h2 h1 (ih h2)
  | case4 i cByte hlt hA a ha => intro hi; subst hA; simpa [decodeWrites, hlt, ha] using hi
  | case5 i cByte hlt hA a ha head => intro hi; subst hA; simpa [decodeWrites, hlt, ha] using hi
  | case6 i cByte hlt hA a ha head head1 => intro hi; subst hA; simpa [decodeWrites, hlt, ha] using hi
  | case7 i cByte hlt adv hA a ha b g r rest3 ih =>
    intro hi
    subst hA
    obtain ⟨h1, h2⟩ := runAdvance_bounds width height i cByte hlt
    have hrw : decodeWrites true width height i (cByte :: a :: b :: g :: r :: rest3) =
        (List.range (runAdvance width height i cByte)).map
          (fun j => ((i + j) % width, (i + j) / width, (⟨r, g, b, a⟩ : Pixel))) ++
          decodeWrites true width height (i + runAdvance width height i cByte) rest3 := by
      simp [decodeWrites, hlt, ha]
    rw [hrw]
    exact paintStep width height i _ _ _ h2 h1 (ih h2)
  | case8 i cByte hlt hA =>
    intro hi
    simp only [Bool.not_eq_true] at hA
    subst hA
    simpa [decodeWrites, hlt] using hi
  | case9 i cByte hlt hA head =>
    intro hi
    simp only [Bool.not_eq_true] at hA
    subst hA
    simpa [decodeWrites, hlt] using hi
  | case10 i cByte hlt hA head head1 =>
    intro hi
    simp only [Bool.not_eq_true] at hA
    subst hA
    simpa [decodeWrites, hlt] using hi
  | case11 i cByte hlt adv hA b g r rest3 ih =>
    intro hi
    simp only [Bool.not_eq_true] at hA
    subst hA
    obtain ⟨h1, h2⟩ := runAdvance_bounds width height i cByte hlt
    have hrw : decodeWrites false width height i (cByte :: b :: g :: r :: rest3) =
        (List.range (runAdvance width height i cByte)).map
          (fun j => ((i + j) % width, (i + j) / width, (⟨r, g, b, 255⟩ : Pixel))) ++
          decodeWrites false width height (i + runAdvance width height i cByte) rest3 := by
      simp [decodeWrites, hlt]
    rw [hrw]
    exact paintStep width height i _ _ _ h2 h1 (ih h2)
  | case12 i cByte rest hlt => intro hi; simpa [decodeWrites, hlt] using hi

/-- Every run the encoder emits covers between 1 and 256 pixels, and the runs
exactly cover the pixel grid. -/
theorem pngRuns_counts (ps : List Pixel) :
    (∀ r ∈ pngRuns ps, 1 ≤ r.1 ∧ r.1 ≤ 256) ∧
      ((pngRuns ps).map Prod.fst).sum = ps.length := by
  induction ps using pngRuns.induct with
  | case1 => simp [pngRuns]
  | case2 c t county ih =>
    rw [pngRuns_cons]
    have hm := matchRun_le c t
    constructor
    · intro r hr
      rcases List.mem_cons.mp hr with rfl | hr
      · constructor <;> simp
      · exact ih.1 r hr
    · simp only [List.map_cons, List.sum_cons, ih.2]
      simp [List.length_drop]
      omega

/-- C9: During decode, every pixel write stays inside the canvas: because each
run length is clamped to the number of pixels remaining, for every painted
index the computed coordinates satisfy 0 ≤ x < width and 0 ≤ y < height, and
the cursor never exceeds width×height (the write count from cursor 0 is at
most width*height). -/
theorem claim_C9 (hasAlpha : Bool) (width height : Nat) (s : List Nat) :
    (∀ wr ∈ decodeWrites hasAlpha width height 0 s, wr.1 < width ∧ wr.2.1 < height) ∧
    (decodeWrites hasAlpha width height 0 s).length ≤ width * height := by
  have h := decodeWrites_bounds hasAlpha width height 0 s (Nat.zero_le _)
  exact ⟨h.1, by omega⟩

/-- C10: Both codec loops terminate for every input: each decode iteration
from inside the canvas advances the cursor by at least 1 (a count byte of 0
means 256) and never past width×height, and each run the encoder emits covers
at least 1 pixel, the runs summing to exactly the pixel count. -/
theorem claim_C10 :
    (∀ w h i cByte : Nat, i < w * h →
        1 ≤ runAdvance w h i cByte ∧ i + runAdvance w h i cByte ≤ w * h) ∧
    (∀ ps : List Pixel,
        (∀ r ∈ pngRuns ps, 1 ≤ r.1 ∧ r.1 ≤ 256) ∧
          ((pngRuns ps).map Prod.fst).sum = ps.length) :=
  ⟨runAdvance_bounds, pngRuns_counts⟩

/-- Witness for C10 at a concrete loop state and a concrete one-pixel grid. -/
theorem claim_C10_witness :
    (1 ≤ runAdvance 2 2 1 0 ∧ 1 + runAdvance 2 2 1 0 ≤ 2 * 2) ∧
    (∀ r ∈ pngRuns [(⟨1, 2, 3, 4⟩ : Pixel)], 1 ≤ r.1 ∧ r.1 ≤ 256) ∧
    ((pngRuns [(⟨1, 2, 3, 4⟩ : Pixel)]).map Prod.fst).sum = 1 :=
  ⟨claim_C10.1 2 2 1 0 (by decide),
    (claim_C10.2 [⟨1, 2, 3, 4⟩]).1,
    (claim_C10.2 [⟨1, 2, 3, 4⟩]).2⟩

/-- The alpha-zero step of the decode loop at any remaining-pixel count
(including zero, where the loop guard stops first). -/
theorem decodeBody_alpha_zero_any (m cByte : Nat) (rest : List Nat) :
    decodeBody true m (cByte :: 0 :: rest) =
      (decodeBody true (m - min (if cByte = 0 then 256 else cByte) m) rest).map
        (fun tail => List.replicate (min (if cByte = 0 then 256 else cByte) m) ⟨0, 0, 0, 0⟩ ++ tail) := by
  cases m with
  | zero => simp [decodeBody_zero, Except.map]
  | succ n => exact decodeBody_alpha_zero n cByte rest

/-- C6: In alpha-mode, every encoded run whose alpha byte is 0 occupies
exactly 2 bytes on the wire (count byte plus alpha byte) with no colour
bytes, and decoding such a run sets every pixel in its span to
RGBA (0,0,0,0). -/
theorem claim_C6 (count : Nat) (c : Pixel) (hc : c.a = 0) (m cByte : Nat) (rest : List Nat) :
    runBytes true (count, c) = [countByte count, 0] ∧
    (runBytes true (count, c)).length = 2 ∧
    decodeBody true m (cByte :: 0 :: rest) =
      (decodeBody true (m - min (if cByte = 0 then 256 else cByte) m) rest).map
        (fun tail => List.replicate (min (if cByte = 0 then 256 else cByte) m) ⟨0, 0, 0, 0⟩ ++ tail) := by
  refine ⟨?_, ?_, decodeBody_alpha_zero_any m cByte rest⟩ <;> simp [runBytes, hc]

/-- Witness for C6: a 3-pixel alpha run with alpha byte 0. -/
theorem claim_C6_witness :
    runBytes true (3, ⟨0, 0, 0, 0⟩) = [countByte 3, 0] ∧
    (runBytes true (3, ⟨0, 0, 0, 0⟩)).length = 2 ∧
    decodeBody true 5 (3 :: 0 :: [2, 0]) =
      (decodeBody true (5 - min (if (3 : Nat) = 0 then 256 else 3) 5) [2, 0]).map
        (fun tail => List.replicate (min (if (3 : Nat) = 0 then 256 else 3) 5) ⟨0, 0, 0, 0⟩ ++ tail) :=
  claim_C6 3 ⟨0, 0, 0, 0⟩ (by decide) 5 3 [2, 0]

/-- C4: a 12-byte header parsing to out-of-range dimensions fails with
`InvalidDimensions` regardless of the body (no body byte is consumed), and
an in-range header never produces that error. -/
theorem claim_C4 (b0 b1 b2 b3 b4 b5 b6 b7 b8 b9 b10 b11 : Nat) (body : List Nat) :
    ((readInt32LE b0 b1 b2 b3 ≤ 0 ∨ readInt32LE b4 b5 b6 b7 ≤ 0 ∨
        readInt32LE b0 b1 b2 b3 > 8192 ∨ readInt32LE b4 b5 b6 b7 > 8192) →
      dataToPng (b0 :: b1 :: b2 :: b3 :: b4 :: b5 :: b6 :: b7 :: b8 :: b9 :: b10 :: b11 :: body) =
        .error .invalidDimensions) ∧
    (0 < readInt32LE b0 b1 b2 b3 → readInt32LE b0 b1 b2 b3 ≤ 8192 →
      0 < readInt32LE b4 b5 b6 b7 → readInt32LE b4 b5 b6 b7 ≤ 8192 →
      dataToPng (b0 :: b1 :: b2 :: b3 :: b4 :: b5 :: b6 :: b7 :: b8 :: b9 :: b10 :: b11 :: body) ≠
        .error .invalidDimensions) := by
  constructor
  · intro hbad
    rw [dataToPng, if_pos hbad]
  · intro h1 h2 h3 h4
    rw [dataToPng, if_neg (by omega)]
    cases hb : decodeBody ((readInt32LE b8 b9 b10 b11) != 0)
        ((readInt32LE b0 b1 b2 b3).toNat * (readInt32LE b4 b5 b6 b7).toNat) body with
    | ok px => simp
    | error e =>
      have he := (decodeBody_spec _ _ _).2 e hb
      subst he
      simp

/-- Witness for C4: width −1 is rejected whatever the body; a 1×1 header is
not rejected. -/
theorem claim_C4_witness :
    dataToPng (255 :: 255 :: 255 :: 255 :: 1 :: 0 :: 0 :: 0 :: 0 :: 0 :: 0 :: 0 :: [7]) =
      .error .invalidDimensions ∧
    dataToPng (1 :: 0 :: 0 :: 0 :: 1 :: 0 :: 0 :: 0 :: 0 :: 0 :: 0 :: 0 :: []) ≠
      .error .invalidDimensions :=
  ⟨(claim_C4 255 255 255 255 1 0 0 0 0 0 0 0 [7]).1 (by decide),
    (claim_C4 1 0 0 0 1 0 0 0 0 0 0 0 []).2 (by decide) (by decide) (by decide) (by decide)⟩

/-- Counterexample to C1: a valid 1×2 non-alpha stream whose first run's
colour triple is cut short after 2 of 3 bytes makes decode fail hard with
the unexpected-EOF error instead of returning the partial image. -/
theorem claim_C1_counterexample :
    dataToPng [1, 0, 0, 0, 2, 0, 0, 0, 0, 0, 0, 0, 1, 10, 20] =
      .error .unexpectedEOF := by rfl

/-- C1 (amended): after a successfully read count byte, end-of-stream at the
alpha byte, or at a colour triple of which no byte is available, terminates
decoding best-effort without an error (at any loop state, i.e. after any
number of complete runs, with `m` pixels remaining); but a colour triple cut
short after one or two bytes is a hard `io.ErrUnexpectedEOF` failure. -/
theorem claim_C1 (m cByte a b g : Nat) (hm : 0 < m) (ha : a ≠ 0) :
    decodeBody true m [cByte] = .ok (List.replicate m (defaultPixel true)) ∧
    decodeBody true m [cByte, a] = .ok (List.replicate m (defaultPixel true)) ∧
    decodeBody false m [cByte] = .ok (List.replicate m (defaultPixel false)) ∧
    decodeBody true m [cByte, a, b] = .error .unexpectedEOF ∧
    decodeBody true m [cByte, a, b, g] = .error .unexpectedEOF ∧
    decodeBody false m [cByte, b] = .error .unexpectedEOF ∧
    decodeBody false m [cByte, b, g] = .error .unexpectedEOF := by
  obtain ⟨n, rfl⟩ : ∃ n, m = n + 1 := ⟨m - 1, by omega⟩
  exact ⟨decodeBody_alpha_eof n cByte, decodeBody_alpha_shortA n cByte a ha,
    decodeBody_plain_eof n cByte, decodeBody_alpha_short1 n cByte a b ha,
    decodeBody_alpha_short2 n cByte a b g ha, decodeBody_plain_short1 n cByte b,
    decodeBody_plain_short2 n cByte b g⟩

/-- Witness for C1 at a concrete loop state. -/
theorem claim_C1_witness :
    decodeBody true 4 [9] = .ok (List.replicate 4 (defaultPixel true)) ∧
    decodeBody true 4 [9, 5] = .ok (List.replicate 4 (defaultPixel true)) ∧
    decodeBody false 4 [9] = .ok (List.replicate 4 (defaultPixel false)) ∧
    decodeBody true 4 [9, 5, 6] = .error .unexpectedEOF ∧
    decodeBody true 4 [9, 5, 6, 7] = .error .unexpectedEOF ∧
    decodeBody false 4 [9, 6] = .error .unexpectedEOF ∧
    decodeBody false 4 [9, 6, 7] = .error .unexpectedEOF :=
  claim_C1 4 9 5 6 7 (by decide) (by decide)

/-- Counterexample to C7: a valid 2×1 non-alpha header whose body ends two
bytes into a colour triple makes decode raise an error rather than return
the full-size default-padded image. -/
theorem claim_C7_counterexample :
    dataToPng [2, 0, 0, 0, 1, 0, 0, 0, 0, 0, 0, 0, 1, 9, 9] =
      .error .unexpectedEOF := by rfl


/-- C8: encode writes the alpha flag (header bytes 8..11) as nonzero exactly
when the source image's pixel representation exposes an alpha channel and at
least one pixel's alpha is below fully opaque; in particular a fully opaque
image with an alpha channel is written in non-alpha mode (flag bytes of 0). -/
theorem claim_C8 (img : SourceImage) :
    ((pngToData img).drop 8).take 4 =
      int32LEBytes (if hasAlphaChannel img then 1 else 0) ∧
    (hasAlphaChannel img = true ↔ img.exposesAlpha = true ∧ ∃ p ∈ img.pixels, p.a < 255) := by
  constructor
  · simp only [pngToData, int32LEBytes, List.cons_append, List.nil_append]
    rfl
  · simp [hasAlphaChannel, List.any_eq_true]

/-- C3: decoding the DATA stream produced by encoding a bitmap yields an
image with exactly the bitmap's width and height and every pixel within the
per-channel tolerance the tests use (5); the hypotheses describe exactly the
bitmaps `PngToData` can see (dimensions of a decodable raster image, channel
values produced by `getRGBA`: 8-bit, premultiplied, and opaque when the pixel
type carries no alpha). -/
theorem claim_C3 (img : SourceImage)
    (hlen : img.pixels.length = img.width * img.height)
    (hw1 : 1 ≤ img.width) (hw2 : img.width ≤ 8192)
    (hh1 : 1 ≤ img.height) (hh2 : img.height ≤ 8192)
    (hpm : ∀ p ∈ img.pixels, p.a = 0 → p.r = 0 ∧ p.g = 0 ∧ p.b = 0)
    (hop : img.exposesAlpha = false → ∀ p ∈ img.pixels, p.a = 255)
    (h255 : ∀ p ∈ img.pixels, p.a ≤ 255) :
    ∃ out, dataToPng (pngToData img) = .ok out ∧
      out.width = img.width ∧ out.height = img.height ∧
      out.pixels.length = img.pixels.length ∧
      ∀ i, i < img.pixels.length →
        pixelClose 5 (out.pixels.getD i (defaultPixel false))
          (img.pixels.getD i (defaultPixel false)) := by
  refine ⟨⟨img.width, img.height, img.pixels⟩,
    dataToPng_pngToData img hlen hw1 hw2 hh1 hh2 hpm hop h255, rfl, rfl, rfl, ?_⟩
  intro i hi
  simp [pixelClose, channelClose]

/-- Witness for C3: a concrete 2×1 alpha-mode image with a transparent and a
translucent pixel. -/
theorem claim_C3_witness :
    ∃ out, dataToPng (pngToData ⟨true, 2, 1, [⟨0, 0, 0, 0⟩, ⟨5, 6, 7, 9⟩]⟩) = .ok out ∧
      out.width = (⟨true, 2, 1, [⟨0, 0, 0, 0⟩, ⟨5, 6, 7, 9⟩]⟩ : SourceImage).width ∧
      out.height = (⟨true, 2, 1, [⟨0, 0, 0, 0⟩, ⟨5, 6, 7, 9⟩]⟩ : SourceImage).height ∧
      out.pixels.length =
        (⟨true, 2, 1, [⟨0, 0, 0, 0⟩, ⟨5, 6, 7, 9⟩]⟩ : SourceImage).pixels.length ∧
      ∀ i, i < (⟨true, 2, 1, [⟨0, 0, 0, 0⟩, ⟨5, 6, 7, 9⟩]⟩ : SourceImage).pixels.length →
        pixelClose 5 (out.pixels.getD i (defaultPixel false))
          ((⟨true, 2, 1, [⟨0, 0, 0, 0⟩, ⟨5, 6, 7, 9⟩]⟩ : SourceImage).pixels.getD i
            (defaultPixel false)) :=
  claim_C3 ⟨true, 2, 1, [⟨0, 0, 0, 0⟩, ⟨5, 6, 7, 9⟩]⟩ (by decide) (by decide) (by decide)
    (by decide) (by decide) (by decide) (by decide) (by decide)

/-- A task converts its file correctly exactly when it contributes no error
to the channel. -/
theorem taskError_none_iff (t : TaskOutcome) :
    taskError t = none ↔ taskConverted t = true := by
  obtain ⟨m, o, cr, cv, ci, co⟩ := t
  cases m <;> cases o <;> cases cr <;> cases cv <;> simp [taskError, taskConverted]

/-- With no `Close` failures, the worker loop collects exactly the
task-level errors, in task order, continuing past every failing task. -/
theorem runWorker_eq_filterMap :
    ∀ l : List TaskOutcome, (∀ t ∈ l, t.closeInOk = true ∧ t.closeOutOk = true) →
      runWorker l = l.filterMap taskError := by
  intro l
  induction l with
  | nil => intro _; rfl
  | cons t rest ih =>
    intro hc
    obtain ⟨h1, h2⟩ := hc t (by simp)
    have hr := ih (fun u hu => hc u (List.mem_cons_of_mem t hu))
    obtain ⟨m, o, cr, cv, ci, co⟩ := t
    simp only at h1 h2
    subst h1
    subst h2
    cases m <;> cases o <;> cases cr <;> cases cv <;>
      simp [runWorker, taskError, hr]

/-- Every task either converts correctly or contributes exactly one error. -/
theorem filter_converted_length (l : List TaskOutcome) :
    (l.filter taskConverted).length + l.countP (fun t => (taskError t).isSome) = l.length := by
  induction l with
  | nil => rfl
  | cons t rest ih =>
    by_cases h : taskConverted t = true
    · have herr : (taskError t).isSome = false := by
        rw [(taskError_none_iff t).mpr h]
        rfl
      simp [List.filter_cons, List.countP_cons, h, herr]
      omega
    · have herr : (taskError t).isSome = true := by
        cases he : taskError t with
        | none => exact absurd ((taskError_none_iff t).mp he) h
        | some e => rfl
      simp [List.filter_cons, List.countP_cons, h, herr]
      omega

/-- C2: with per-task filesystem outcomes for each of the four fallible steps
(create output directory, open input, create output, convert) and successful
`Close` calls, the batch collects each failing task's error and continues;
the final result is exactly the first collected error (`none` exactly when no
task failed), and with exactly one failing task among N the other N−1 all
convert, the batch returning one non-nil error. -/
theorem claim_C2 (outcomes : List TaskOutcome)
    (hclose : ∀ t ∈ outcomes, t.closeInOk = true ∧ t.closeOutOk = true) :
    convert none outcomes = (outcomes.filterMap taskError).head? ∧
    (convert none outcomes = none ↔ ∀ t ∈ outcomes, taskError t = none) ∧
    (outcomes.countP (fun t => (taskError t).isSome) = 1 →
      (outcomes.filter taskConverted).length = outcomes.length - 1 ∧
        convert none outcomes ≠ none) := by
  have h0 : convert none outcomes = (outcomes.filterMap taskError).head? := by
    cases outcomes with
    | nil => rfl
    | cons t rest =>
      show (runWorker (t :: rest)).head? = _
      rw [runWorker_eq_filterMap (t :: rest) hclose]
  have h1 : convert none outcomes = none ↔ ∀ t ∈ outcomes, taskError t = none := by
    rw [h0, List.head?_eq_none_iff, List.filterMap_eq_nil_iff]
  refine ⟨h0, h1, fun hcount => ⟨?_, ?_⟩⟩
  · have := filter_converted_length outcomes
    have hpos : 0 < outcomes.countP (fun t => (taskError t).isSome) := by omega
    omega
  · intro hnone
    have hall := h1.mp hnone
    have : outcomes.countP (fun t => (taskError t).isSome) = 0 := by
      rw [List.countP_eq_zero]
      intro t ht
      rw [hall t ht]
      simp
    omega

/-- Witness for C2: three tasks, the middle one failing at the open step. -/
theorem claim_C2_witness :
    convert none [⟨none, none, none, none, true, true⟩,
        ⟨none, some "open failed", none, none, true, true⟩,
        ⟨none, none, none, none, true, true⟩] =
      (([⟨none, none, none, none, true, true⟩,
          ⟨none, some "open failed", none, none, true, true⟩,
          ⟨none, none, none, none, true, true⟩] : List TaskOutcome).filterMap taskError).head? ∧
    (convert none [⟨none, none, none, none, true, true⟩,
          ⟨none, some "open failed", none, none, true, true⟩,
          ⟨none, none, none, none, true, true⟩] = none ↔
      ∀ t ∈ ([⟨none, none, none, none, true, true⟩,
          ⟨none, some "open failed", none, none, true, true⟩,
          ⟨none, none, none, none, true, true⟩] : List TaskOutcome), taskError t = none) ∧
    (([⟨none, none, none, none, true, true⟩,
          ⟨none, some "open failed", none, none, true, true⟩,
          ⟨none, none, none, none, true, true⟩] : List TaskOutcome).countP
        (fun t => (taskError t).isSome) = 1 →
      (([⟨none, none, none, none, true, true⟩,
          ⟨none, some "open failed", none, none, true, true⟩,
          ⟨none, none, none, none, true, true⟩] : List TaskOutcome).filter taskConverted).length =
          ([⟨none, none, none, none, true, true⟩,
          ⟨none, some "open failed", none, none, true, true⟩,
          ⟨none, none, none, none, true, true⟩] : List TaskOutcome).length - 1 ∧
        convert none [⟨none, none, none, none, true, true⟩,
          ⟨none, some "open failed", none, none, true, true⟩,
          ⟨none, none, none, none, true, true⟩] ≠ none) :=
  claim_C2 [⟨none, none, none, none, true, true⟩,
    ⟨none, some "open failed", none, none, true, true⟩,
    ⟨none, none, none, none, true, true⟩]
    (by intro t ht; fin_cases ht <;> exact ⟨rfl, rfl⟩)

/-- The lookahead over a uniform block counts the whole block. -/
theorem matchRun_replicate (c : Pixel) : ∀ k, matchRun c (List.replicate k c) = k := by
  intro k
  induction k with
  | zero => rfl
  | succ k ih => simp [List.replicate_succ, matchRun, ih]

/-- The lookahead stops immediately when the first pixel differs. -/
theorem matchRun_of_head_ne (c : Pixel) (l : List Pixel)
    (hl : ∀ q, l.head? = some q → q ≠ c) : matchRun c l = 0 := by
  cases l with
  | nil => rfl
  | cons q l' =>
    have hq := hl q rfl
    simp [matchRun, hq]

/-- Unfolding the lookahead over an equal head pixel. -/
theorem matchRun_cons_self (c : Pixel) (t : List Pixel) :
    matchRun c (c :: t) = matchRun c t + 1 := by simp [matchRun]

/-- The lookahead across a list boundary: it crosses into the second list
exactly when it consumed the whole first list. -/
theorem matchRun_append (c : Pixel) :
    ∀ t l, matchRun c (t ++ l) =
      matchRun c t + (if matchRun c t = t.length then matchRun c l else 0) := by
  intro t
  induction t with
  | nil => intro l; simp [matchRun]
  | cons p t ih =>
    intro l
    by_cases hp : p = c
    · rw [hp, List.cons_append, matchRun_cons_self, matchRun_cons_self, ih l, List.length_cons]
      by_cases hf : matchRun c t = t.length
      · rw [if_pos hf, if_pos (show matchRun c t + 1 = t.length + 1 by omega)]
        omega
      · rw [if_neg hf, if_neg (show ¬matchRun c t + 1 = t.length + 1 by omega)]
    · simp [matchRun, hp]

/-- A full lookahead means every pixel, the last included, equals the run
colour. -/
theorem getLast?_of_matchRun_full (c : Pixel) :
    ∀ t, matchRun c t = t.length → (c :: t).getLast? = some c := by
  intro t
  induction t with
  | nil => intro _; rfl
  | cons p t ih =>
    intro hf
    simp only [matchRun, List.length_cons] at hf
    by_cases hp : p = c
    · rw [if_pos hp] at hf
      rw [hp, List.getLast?_cons_cons]
      exact ih (by omega)
    · rw [if_neg hp] at hf
      have := matchRun_le c t
      omega

/-- A nonempty suffix obtained by `drop` has the same last element as the
whole list. -/
theorem getLast?_drop_of_ne_nil (t : List Pixel) (k : Nat) (h : t.drop k ≠ []) :
    (t.drop k).getLast? = t.getLast? := by
  conv_rhs => rw [← List.take_append_drop k t]
  rw [List.getLast?_append_of_ne_nil _ h]

/-- Greedy runs never cross a boundary where the pixels differ: the encoder's
run list of a concatenation is the concatenation of the run lists, provided
the last pixel before the boundary differs from the first after it. -/
theorem pngRuns_append :
    ∀ N pre l, pre.length ≤ N →
      (∀ x y, pre.getLast? = some x → l.head? = some y → x ≠ y) →
      pngRuns (pre ++ l) = pngRuns pre ++ pngRuns l := by
  intro N
  induction N with
  | zero =>
    intro pre l hlen _
    have : pre = [] := List.length_eq_zero.mp (by omega)
    subst this
    simp [pngRuns]
  | succ N ih =>
    intro pre l hlen hb
    match pre with
    | [] => simp [pngRuns]
    | c :: t =>
      have hm := matchRun_le c t
      have hEq : matchRun c (t ++ l) = matchRun c t := by
        rw [matchRun_append]
        by_cases hf : matchRun c t = t.length
        · rw [if_pos hf]
          have hl0 : matchRun c l = 0 := by
            apply matchRun_of_head_ne
            intro q hq
            have hlast := getLast?_of_matchRun_full c t hf
            exact fun hqc => hb c q hlast hq hqc.symm
          omega
        · rw [if_neg hf]
          omega
      set cnt := min 256 (1 + matchRun c t) with hcnt
      have hc1 : 1 ≤ cnt := by omega
      have hcle : cnt - 1 ≤ t.length := by omega
      rw [List.cons_append, pngRuns_cons, hEq, ← hcnt,
        List.drop_append_of_le_length hcle]
      rw [pngRuns_cons, ← hcnt]
      rw [ih (t.drop (cnt - 1)) l (by have hL := hlen; simp only [List.length_drop, List.length_cons] at hL ⊢; omega) ?_]
      · simp
      · intro x y hx hy
        have hne : t.drop (cnt - 1) ≠ [] := by
          intro hzero
          rw [hzero] at hx
          cases hx
        have hlast : t.getLast? = some x := by
          rw [← getLast?_drop_of_ne_nil t (cnt - 1) hne]
          exact hx
        have htne : t ≠ [] := by
          intro h0
          subst h0
          simp at hne
        have hclast : (c :: t).getLast? = some x := by
          cases t with
          | nil => exact absurd rfl htne
          | cons u t' => rw [List.getLast?_cons_cons]; exact hlast
        exact hb x y hclast hy

/-- A maximal block of exactly 256 equal pixels is emitted as one run of
length 256. -/
theorem pngRuns_replicate256 (c : Pixel) (l : List Pixel)
    (hl : ∀ q, l.head? = some q → q ≠ c) :
    pngRuns (List.replicate 256 c ++ l) = (256, c) :: pngRuns l := by
  have hrep : List.replicate 256 c ++ l = c :: (List.replicate 255 c ++ l) := by
    rw [show (256 : Nat) = 255 + 1 from rfl, List.replicate_succ, List.cons_append]
  have hmr : matchRun c (List.replicate 255 c ++ l) = 255 := by
    rw [matchRun_append, matchRun_replicate, List.length_replicate, if_pos rfl,
      matchRun_of_head_ne c l hl]
  rw [hrep, pngRuns_cons, hmr]
  have h1 : min 256 (1 + 255) = 256 := by norm_num
  have h2 : (256 : Nat) - 1 = 255 := by norm_num
  rw [h1, h2, List.drop_append_of_le_length (by rw [List.length_replicate]),
    List.drop_replicate]
  norm_num

/-- A maximal block of exactly 257 equal pixels is emitted as two runs of
lengths 256 and 1. -/
theorem pngRuns_replicate257 (c : Pixel) (l : List Pixel)
    (hl : ∀ q, l.head? = some q → q ≠ c) :
    pngRuns (List.replicate 257 c ++ l) = (256, c) :: (1, c) :: pngRuns l := by
  have hrep : List.replicate 257 c ++ l = c :: (List.replicate 256 c ++ l) := by
    rw [show (257 : Nat) = 256 + 1 from rfl, List.replicate_succ, List.cons_append]
  have hmr : matchRun c (List.replicate 256 c ++ l) = 256 := by
    rw [matchRun_append, matchRun_replicate, List.length_replicate, if_pos rfl,
      matchRun_of_head_ne c l hl]
  rw [hrep, pngRuns_cons, hmr]
  have h1 : min 256 (1 + 256) = 256 := by norm_num
  have h2 : (256 : Nat) - 1 = 255 := by norm_num
  rw [h1, h2, List.drop_append_of_le_length (by rw [List.length_replicate]; norm_num),
    List.drop_replicate]
  have h3 : (256 : Nat) - 255 = 1 := by norm_num
  rw [h3, show List.replicate 1 c ++ l = c :: l from rfl, pngRuns_cons,
    matchRun_of_head_ne c l hl]
  norm_num

/-- C5: in any pixel grid containing a maximal row-major block of exactly 256
identical pixels (the neighbours on both sides, when present, differ), the
encoder emits that block as a single run of length 256 whose count byte is 0;
a maximal block of 257 identical pixels is emitted as exactly two runs, 256
then 1, with count bytes 0 and then 1. -/
theorem claim_C5 (pre suf : List Pixel) (c : Pixel)
    (hpre : ∀ q, pre.getLast? = some q → q ≠ c)
    (hsuf : ∀ q, suf.head? = some q → q ≠ c) :
    (pngRuns (pre ++ List.replicate 256 c ++ suf) =
        pngRuns pre ++ [(256, c)] ++ pngRuns suf ∧
      ∀ hasAlpha, (runBytes hasAlpha (256, c)).head? = some 0) ∧
    (pngRuns (pre ++ List.replicate 257 c ++ suf) =
        pngRuns pre ++ [(256, c), (1, c)] ++ pngRuns suf ∧
      ∀ hasAlpha, (runBytes hasAlpha (1, c)).head? = some 1) := by
  have hbound : ∀ k, k ≠ 0 → ∀ x y : Pixel, pre.getLast? = some x →
      (List.replicate k c ++ suf).head? = some y → x ≠ y := by
    intro k hk x y hx hy
    have hyc : y = c := by
      cases k with
      | zero => exact absurd rfl hk
      | succ k =>
        rw [List.replicate_succ, List.cons_append] at hy
        cases hy
        rfl
    subst hyc
    exact hpre x hx
  have hcb0 : ∀ hasAlpha, (runBytes hasAlpha (256, c)).head? = some 0 := by
    intro hasAlpha
    cases hasAlpha <;> by_cases hc : c.a = 0 <;>
      simp [runBytes, countByte, hc]
  have hcb1 : ∀ hasAlpha, (runBytes hasAlpha (1, c)).head? = some 1 := by
    intro hasAlpha
    cases hasAlpha <;> by_cases hc : c.a = 0 <;>
      simp [runBytes, countByte, hc]
  refine ⟨⟨?_, hcb0⟩, ⟨?_, hcb1⟩⟩
  · rw [List.append_assoc,
      pngRuns_append pre.length pre (List.replicate 256 c ++ suf) le_rfl
        (hbound 256 (by norm_num)),
      pngRuns_replicate256 c suf hsuf]
    simp
  · rw [List.append_assoc,
      pngRuns_append pre.length pre (List.replicate 257 c ++ suf) le_rfl
        (hbound 257 (by norm_num)),
      pngRuns_replicate257 c suf hsuf]
    simp

/-- Witness for C5: a uniform block with empty context. -/
theorem claim_C5_witness :
    (pngRuns (([] : List Pixel) ++ List.replicate 256 ⟨9, 9, 9, 255⟩ ++ []) =
        pngRuns ([] : List Pixel) ++ [(256, ⟨9, 9, 9, 255⟩)] ++ pngRuns ([] : List Pixel) ∧
      ∀ hasAlpha, (runBytes hasAlpha (256, ⟨9, 9, 9, 255⟩)).head? = some 0) ∧
    (pngRuns (([] : List Pixel) ++ List.replicate 257 ⟨9, 9, 9, 255⟩ ++ []) =
        pngRuns ([] : List Pixel) ++ [(256, ⟨9, 9, 9, 255⟩), (1, ⟨9, 9, 9, 255⟩)] ++
          pngRuns ([] : List Pixel) ∧
      ∀ hasAlpha, (runBytes hasAlpha (1, ⟨9, 9, 9, 255⟩)).head? = some 1) :=
  claim_C5 [] [] ⟨9, 9, 9, 255⟩ (by intro q hq; cases hq) (by intro q hq; cases hq)

/-- The clamped advance is the minimum of the run length and the pixels
left. -/
theorem runAdvance_min (w h i cByte : Nat) :
    runAdvance w h i cByte = min (if cByte = 0 then 256 else cByte) (w * h - i) := by
  unfold runAdvance
  dsimp only
  by_cases hc : cByte = 0
  · rw [if_pos hc]
    split <;> omega
  · rw [if_neg hc]
    split <;> omega

/-- A body-loop error pins down the end of the stream: decoding fails only
when the stream terminates with a count byte (and, in alpha mode, a nonzero
alpha byte) followed by exactly one or two of the three colour bytes. -/
theorem decodeBody_error_shape (hasAlpha : Bool) : ∀ m s e,
    decodeBody hasAlpha m s = .error e →
    ∃ j cByte rest, s.drop j = cByte :: rest ∧
      (hasAlpha = true →
        ∃ a rest2, rest = a :: rest2 ∧ a ≠ 0 ∧ (rest2.length = 1 ∨ rest2.length = 2)) ∧
      (hasAlpha = false → rest.length = 1 ∨ rest.length = 2) := by
  intro m s
  induction m, s using decodeBody.induct hasAlpha with
  | case1 t => intro e h; rw [decodeBody_zero] at h; cases h
  | case2 n => intro e h; rw [decodeBody_nil] at h; cases h
  | case3 n cByte hA =>
    subst hA
    intro e h
    rw [decodeBody_alpha_eof] at h
    cases h
  | case4 n cByte count clamped hA rest2 tail hrec ih =>
    subst hA
    have hcl : clamped = min (if cByte = 0 then 256 else cByte) (n + 1) := rfl
    rw [hcl] at hrec
    intro e h
    rw [decodeBody_alpha_zero, hrec] at h
    simp only [Except.map] at h
    cases h
  | case5 n cByte count clamped hA rest2 e0 hrec ih =>
    subst hA
    have hcl : clamped = min (if cByte = 0 then 256 else cByte) (n + 1) := rfl
    rw [hcl] at hrec ih
    intro e h
    obtain ⟨j, cb, rest, hdrop, hA1, hA0⟩ := ih e0 hrec
    refine ⟨j + 2, cb, rest, ?_, hA1, hA0⟩
    rw [show j + 2 = (j + 1) + 1 from rfl, List.drop_succ_cons, List.drop_succ_cons]
    exact hdrop
  | case6 n cByte hA a ha =>
    subst hA
    intro e h
    rw [decodeBody_alpha_shortA n cByte a ha] at h
    cases h
  | case7 n cByte hA a ha b =>
    subst hA
    intro e h
    refine ⟨0, cByte, [a, b], rfl, fun _ => ⟨a, [b], rfl, ha, Or.inl rfl⟩, fun hf => ?_⟩
    exact Bool.noConfusion hf
  | case8 n cByte hA a ha b g =>
    subst hA
    intro e h
    refine ⟨0, cByte, [a, b, g], rfl, fun _ => ⟨a, [b, g], rfl, ha, Or.inr rfl⟩, fun hf => ?_⟩
    exact Bool.noConfusion hf
  | case9 n cByte count clamped hA a ha b g r rest3 tail hrec ih =>
    subst hA
    have hcl : clamped = min (if cByte = 0 then 256 else cByte) (n + 1) := rfl
    rw [hcl] at hrec
    intro e h
    rw [decodeBody_alpha_color n cByte a b g r rest3 ha, hrec] at h
    simp only [Except.map] at h
    cases h
  | case10 n cByte count clamped hA a ha b g r rest3 e0 hrec ih =>
    subst hA
    have hcl : clamped = min (if cByte = 0 then 256 else cByte) (n + 1) := rfl
    rw [hcl] at hrec ih
    intro e h
    obtain ⟨j, cb, rest, hdrop, hA1, hA0⟩ := ih e0 hrec
    refine ⟨j + 5, cb, rest, ?_, hA1, hA0⟩
    rw [show j + 5 = (((j + 4) + 1) : Nat) from rfl, List.drop_succ_cons,
      show j + 4 = (((j + 3) + 1) : Nat) from rfl, List.drop_succ_cons,
      show j + 3 = (((j + 2) + 1) : Nat) from rfl, List.drop_succ_cons,
      show j + 2 = (((j + 1) + 1) : Nat) from rfl, List.drop_succ_cons,
      List.drop_succ_cons]
    exact hdrop
  | case11 n cByte hA =>
    simp only [Bool.not_eq_true] at hA
    subst hA
    intro e h
    rw [decodeBody_plain_eof] at h
    cases h
  | case12 n cByte hA b =>
    simp only [Bool.not_eq_true] at hA
    subst hA
    intro e h
    refine ⟨0, cByte, [b], rfl, fun hf => ?_, fun _ => Or.inl rfl⟩
    exact Bool.noConfusion hf
  | case13 n cByte hA b g =>
    simp only [Bool.not_eq_true] at hA
    subst hA
    intro e h
    refine ⟨0, cByte, [b, g], rfl, fun hf => ?_, fun _ => Or.inr rfl⟩
    exact Bool.noConfusion hf
  | case14 n cByte count clamped hA b g r rest3 tail hrec ih =>
    simp only [Bool.not_eq_true] at hA
    subst hA
    have hcl : clamped = min (if cByte = 0 then 256 else cByte) (n + 1) := rfl
    rw [hcl] at hrec
    intro e h
    rw [decodeBody_plain_color, hrec] at h
    simp only [Except.map] at h
    cases h
  | case15 n cByte count clamped hA b g r rest3 e0 hrec ih =>
    simp only [Bool.not_eq_true] at hA
    subst hA
    have hcl : clamped = min (if cByte = 0 then 256 else cByte) (n + 1) := rfl
    rw [hcl] at hrec ih
    intro e h
    obtain ⟨j, cb, rest, hdrop, hA1, hA0⟩ := ih e0 hrec
    refine ⟨j + 4, cb, rest, ?_, hA1, hA0⟩
    rw [show j + 4 = (((j + 3) + 1) : Nat) from rfl, List.drop_succ_cons,
      show j + 3 = (((j + 2) + 1) : Nat) from rfl, List.drop_succ_cons,
      show j + 2 = (((j + 1) + 1) : Nat) from rfl, List.drop_succ_cons,
      List.drop_succ_cons]
    exact hdrop

/-- Correspondence between the pixel view and the write-trace view of the
decode loop: on a successful decode from cursor `i`, the pixels at and beyond
the number of writes the loop performs — the pixels the stream never
reached — are exactly the canvas default. -/
theorem decodeBody_decodeWrites (hasAlpha : Bool) (width height : Nat) :
    ∀ i s, i ≤ width * height →
      ∀ ps, decodeBody hasAlpha (width * height - i) s = .ok ps →
        ps.drop ((decodeWrites hasAlpha width height i s).length) =
          List.replicate ((width * height - i) - (decodeWrites hasAlpha width height i s).length)
            (defaultPixel hasAlpha) := by
  intro i s
  induction i, s using decodeWrites.induct hasAlpha width height with
  | case1 i =>
    intro hi ps h
    rw [show decodeWrites hasAlpha width height i [] = [] from by cases hasAlpha <;> rfl]
    cases hm : width * height - i with
    | zero =>
      rw [hm] at h
      rw [decodeBody_zero] at h
      cases h
      simp [hm]
    | succ n =>
      rw [hm] at h
      rw [decodeBody_nil] at h
      cases h
      simp [hm]
  | case2 i cByte hlt hA =>
    subst hA
    intro hi ps h
    obtain ⟨n, hn⟩ : ∃ n, width * height - i = n + 1 := ⟨width * height - i - 1, by omega⟩
    rw [hn, decodeBody_alpha_eof] at h
    cases h
    rw [show decodeWrites true width height i [cByte] = [] from by simp [decodeWrites, hlt]]
    simp [hn]
  | case3 i cByte hlt adv hA rest2 ih =>
    subst hA
    intro hi ps h
    obtain ⟨n, hn⟩ : ∃ n, width * height - i = n + 1 := ⟨width * height - i - 1, by omega⟩
    obtain ⟨ha1, ha2⟩ := runAdvance_bounds width height i cByte hlt
    have hadv : runAdvance width height i cByte =
        min (if cByte = 0 then 256 else cByte) (n + 1) := by
      rw [runAdvance_min, hn]
    rw [hn, decodeBody_alpha_zero] at h
    cases hrec : decodeBody true (n + 1 - min (if cByte = 0 then 256 else cByte) (n + 1)) rest2 with
    | error e => rw [hrec] at h; cases h
    | ok tail =>
      rw [hrec] at h
      simp only [Except.map] at h
      injection h with h
      subst h
      have hrw : decodeWrites true width height i (cByte :: 0 :: rest2) =
          (List.range (runAdvance width height i cByte)).map
            (fun j => ((i + j) % width, (i + j) / width, (⟨0, 0, 0, 0⟩ : Pixel))) ++
            decodeWrites true width height (i + runAdvance width height i cByte) rest2 := by
        simp [decodeWrites, hlt]
      have hrec' : decodeBody true (width * height - (i + runAdvance width height i cByte))
          rest2 = .ok tail := by
        rw [show width * height - (i + runAdvance width height i cByte) =
          n + 1 - min (if cByte = 0 then 256 else cByte) (n + 1) from by rw [hadv]; omega]
        exact hrec
      have hih := ih ha2 tail hrec'
      rw [show adv = runAdvance width height i cByte from rfl] at hih
      rw [hrw, List.length_append, List.length_map, List.length_range, ← hadv]
      have hD := @List.drop_append Pixel
        (List.replicate (runAdvance width height i cByte) (⟨0, 0, 0, 0⟩ : Pixel)) tail
        ((decodeWrites true width height (i + runAdvance width height i cByte) rest2).length)
      rw [List.length_replicate] at hD
      rw [hD, hih]
      congr 1
      omega
  | case4 i cByte hlt hA a ha =>
    subst hA
    intro hi ps h
    obtain ⟨n, hn⟩ : ∃ n, width * height - i = n + 1 := ⟨width * height - i - 1, by omega⟩
    rw [hn, decodeBody_alpha_shortA n cByte a ha] at h
    cases h
    rw [show decodeWrites true width height i [cByte, a] = [] from by simp [decodeWrites, hlt, ha]]
    simp [hn]
  | case5 i cByte hlt hA a ha head =>
    subst hA
    intro hi ps h
    obtain ⟨n, hn⟩ : ∃ n, width * height - i = n + 1 := ⟨width * height - i - 1, by omega⟩
    rw [hn, decodeBody_alpha_short1 n cByte a head ha] at h
    cases h
  | case6 i cByte hlt hA a ha head head1 =>
    subst hA
    intro hi ps h
    obtain ⟨n, hn⟩ : ∃ n, width * height - i = n + 1 := ⟨width * height - i - 1, by omega⟩
    rw [hn, decodeBody_alpha_short2 n cByte a head head1 ha] at h
    cases h
  | case7 i cByte hlt adv hA a ha b g r rest3 ih =>
    subst hA
    intro hi ps h
    obtain ⟨n, hn⟩ : ∃ n, width * height - i = n + 1 := ⟨width * height - i - 1, by omega⟩
    obtain ⟨ha1, ha2⟩ := runAdvance_bounds width height i cByte hlt
    have hadv : runAdvance width height i cByte =
        min (if cByte = 0 then 256 else cByte) (n + 1) := by
      rw [runAdvance_min, hn]
    rw [hn, decodeBody_alpha_color n cByte a b g r rest3 ha] at h
    cases hrec : decodeBody true (n + 1 - min (if cByte = 0 then 256 else cByte) (n + 1)) rest3 with
    | error e => rw [hrec] at h; cases h
    | ok tail =>
      rw [hrec] at h
      simp only [Except.map] at h
      injection h with h
      subst h
      have hrw : decodeWrites true width height i (cByte :: a :: b :: g :: r :: rest3) =
          (List.range (runAdvance width height i cByte)).map
            (fun j => ((i + j) % width, (i + j) / width, (⟨r, g, b, a⟩ : Pixel))) ++
            decodeWrites true width height (i + runAdvance width height i cByte) rest3 := by
        simp [decodeWrites, hlt, ha]
      have hrec' : decodeBody true (width * height - (i + runAdvance width height i cByte))
          rest3 = .ok tail := by
        rw [show width * height - (i + runAdvance width height i cByte) =
          n + 1 - min (if cByte = 0 then 256 else cByte) (n + 1) from by rw [hadv]; omega]
        exact hrec
      have hih := ih ha2 tail hrec'
      rw [show adv = runAdvance width height i cByte from rfl] at hih
      rw [hrw, List.length_append, List.length_map, List.length_range, ← hadv]
      have hD := @List.drop_append Pixel
        (List.replicate (runAdvance width height i cByte) (⟨r, g, b, a⟩ : Pixel)) tail
        ((decodeWrites true width height (i + runAdvance width height i cByte) rest3).length)
      rw [List.length_replicate] at hD
      rw [hD, hih]
      congr 1
      omega
  | case8 i cByte hlt hA =>
    simp only [Bool.not_eq_true] at hA
    subst hA
    intro hi ps h
    obtain ⟨n, hn⟩ : ∃ n, width * height - i = n + 1 := ⟨width * height - i - 1, by omega⟩
    rw [hn, decodeBody_plain_eof] at h
    cases h
    rw [show decodeWrites false width height i [cByte] = [] from by simp [decodeWrites, hlt]]
    simp [hn]
  | case9 i cByte hlt hA head =>
    simp only [Bool.not_eq_true] at hA
    subst hA
    intro hi ps h
    obtain ⟨n, hn⟩ : ∃ n, width * height - i = n + 1 := ⟨width * height - i - 1, by omega⟩
    rw [hn, decodeBody_plain_short1] at h
    cases h
  | case10 i cByte hlt hA head head1 =>
    simp only [Bool.not_eq_true] at hA
    subst hA
    intro hi ps h
    obtain ⟨n, hn⟩ : ∃ n, width * height - i = n + 1 := ⟨width * height - i - 1, by omega⟩
    rw [hn, decodeBody_plain_short2] at h
    cases h
  | case11 i cByte hlt adv hA b g r rest3 ih =>
    simp only [Bool.not_eq_true] at hA
    subst hA
    intro hi ps h
    obtain ⟨n, hn⟩ : ∃ n, width * height - i = n + 1 := ⟨width * height - i - 1, by omega⟩
    obtain ⟨ha1, ha2⟩ := runAdvance_bounds width height i cByte hlt
    have hadv : runAdvance width height i cByte =
        min (if cByte = 0 then 256 else cByte) (n + 1) := by
      rw [runAdvance_min, hn]
    rw [hn, decodeBody_plain_color] at h
    cases hrec : decodeBody false (n + 1 - min (if cByte = 0 then 256 else cByte) (n + 1)) rest3 with
    | error e => rw [hrec] at h; cases h
    | ok tail =>
      rw [hrec] at h
      simp only [Except.map] at h
      injection h with h
      subst h
      have hrw : decodeWrites false width height i (cByte :: b :: g :: r :: rest3) =
          (List.range (runAdvance width height i cByte)).map
            (fun j => ((i + j) % width, (i + j) / width, (⟨r, g, b, 255⟩ : Pixel))) ++
            decodeWrites false width height (i + runAdvance width height i cByte) rest3 := by
        simp [decodeWrites, hlt]
      have hrec' : decodeBody false (width * height - (i + runAdvance width height i cByte))
          rest3 = .ok tail := by
        rw [show width * height - (i + runAdvance width height i cByte) =
          n + 1 - min (if cByte = 0 then 256 else cByte) (n + 1) from by rw [hadv]; omega]
        exact hrec
      have hih := ih ha2 tail hrec'
      rw [show adv = runAdvance width height i cByte from rfl] at hih
      rw [hrw, List.length_append, List.length_map, List.length_range, ← hadv]
      have hD := @List.drop_append Pixel
        (List.replicate (runAdvance width height i cByte) (⟨r, g, b, 255⟩ : Pixel)) tail
        ((decodeWrites false width height (i + runAdvance width height i cByte) rest3).length)
      rw [List.length_replicate] at hD
      rw [hD, hih]
      congr 1
      omega
  | case12 i cByte rest hlt =>
    intro hi ps h
    have hieq : width * height - i = 0 := by omega
    rw [hieq, decodeBody_zero] at h
    cases h
    rw [show decodeWrites hasAlpha width height i (cByte :: rest) = [] from by
      simp [decodeWrites, hlt]]
    simp [hieq]

/-- C7 (amended): for every in-range header, either decode returns a
full-size width×height image in which every pixel the stream never reached —
every pixel at or beyond the number of writes the body loop performs — equals
the mode-dependent default, with no decode error; or decode fails with the
unexpected-EOF error, which happens only when the body ends with a count byte
(and, in alpha mode, a nonzero alpha byte) followed by just one or two of the
three colour bytes. -/
theorem claim_C7 (w h flag : Nat) (body : List Nat) (hw1 : 1 ≤ w) (hw2 : w ≤ 8192)
    (hh1 : 1 ≤ h) (hh2 : h ≤ 8192) (hf : flag ≤ 1) :
    (∃ img, dataToPng (int32LEBytes w ++ int32LEBytes h ++ int32LEBytes flag ++ body) =
        .ok img ∧ img.width = w ∧ img.height = h ∧ img.pixels.length = w * h ∧
      (decodeWrites (flag != 0) w h 0 body).length ≤ w * h ∧
      img.pixels.drop ((decodeWrites (flag != 0) w h 0 body).length) =
        List.replicate (w * h - (decodeWrites (flag != 0) w h 0 body).length)
          (defaultPixel (flag != 0))) ∨
    (dataToPng (int32LEBytes w ++ int32LEBytes h ++ int32LEBytes flag ++ body) =
        .error .unexpectedEOF ∧
      ∃ j cByte rest, body.drop j = cByte :: rest ∧
        ((flag != 0) = true →
          ∃ a rest2, rest = a :: rest2 ∧ a ≠ 0 ∧ (rest2.length = 1 ∨ rest2.length = 2)) ∧
        ((flag != 0) = false → rest.length = 1 ∨ rest.length = 2)) := by
  rw [dataToPng_header w h flag body hw1 hw2 hh1 hh2 hf]
  cases hb : decodeBody (flag != 0) (w * h) body with
  | error e =>
    right
    have he := (decodeBody_spec _ _ _).2 e hb
    subst he
    obtain ⟨j, cByte, rest, hdrop, hA1, hA0⟩ :=
      decodeBody_error_shape (flag != 0) (w * h) body .unexpectedEOF hb
    exact ⟨rfl, j, cByte, rest, hdrop, hA1, hA0⟩
  | ok ps =>
    left
    have hlen := decodeBody_ok_length (flag != 0) (w * h) body ps hb
    have hcorr := decodeBody_decodeWrites (flag != 0) w h 0 body (Nat.zero_le _) ps
      (by rw [Nat.sub_zero]; exact hb)
    have hk := (decodeWrites_bounds (flag != 0) w h 0 body (Nat.zero_le _)).2
    refine ⟨⟨w, h, ps⟩, rfl, rfl, rfl, hlen, by omega, ?_⟩
    simpa using hcorr

/-- Witness for C7: a 1×2 non-alpha stream whose body paints one pixel and
then ends cleanly at the next count byte. -/
theorem claim_C7_witness :
    (∃ img, dataToPng (int32LEBytes 1 ++ int32LEBytes 2 ++ int32LEBytes 0 ++ [1, 9, 9, 9]) =
        .ok img ∧ img.width = 1 ∧ img.height = 2 ∧ img.pixels.length = 1 * 2 ∧
      (decodeWrites ((0 : Nat) != 0) 1 2 0 [1, 9, 9, 9]).length ≤ 1 * 2 ∧
      img.pixels.drop ((decodeWrites ((0 : Nat) != 0) 1 2 0 [1, 9, 9, 9]).length) =
        List.replicate (1 * 2 - (decodeWrites ((0 : Nat) != 0) 1 2 0 [1, 9, 9, 9]).length)
          (defaultPixel ((0 : Nat) != 0))) ∨
    (dataToPng (int32LEBytes 1 ++ int32LEBytes 2 ++ int32LEBytes 0 ++ [1, 9, 9, 9]) =
        .error .unexpectedEOF ∧
      ∃ j cByte rest, ([1, 9, 9, 9] : List Nat).drop j = cByte :: rest ∧
        (((0 : Nat) != 0) = true →
          ∃ a rest2, rest = a :: rest2 ∧ a ≠ 0 ∧ (rest2.length = 1 ∨ rest2.length = 2)) ∧
        (((0 : Nat) != 0) = false → rest.length = 1 ∨ rest.length = 2)) :=
  claim_C7 1 2 0 [1, 9, 9, 9] (by decide) (by decide) (by decide) (by decide) (by decide)

end Celeste
